import Mathlib

/-!
Shallow embedding of the temporal edge-convolution code
(temporal_edgecnn/temporal_edgecnn.py and models/knn_less_modified_edgecnn.py).

Tensors are modelled as flat lists (row-major, exactly the memory layout the
reshape and repeat operations act on) or, for the precomputed square mask,
as a function from row and column indices to the stored value.
-/

/-! ### Temporal mask of TemporalAutomatedGraphDynamicEdgeConv.__init__

The constructor builds a (num_points x num_points) zero matrix and, for each
frame, writes ones into the block
  rows [max(0, (frame - t//2) * nppf), (frame + t//2) * nppf)
  cols [frame * nppf, (frame + 1) * nppf)
where nppf = num_points // num_frames.  Out-of-range slice bounds are clamped
to the matrix size, as Python slicing does. -/

def maskStep (num_points nppf thalf : Nat) (m : Nat → Nat → Nat) (frame : Nat) :
    Nat → Nat → Nat :=
  fun r c =>
    if (if frame < thalf then 0 else (frame - thalf) * nppf) ≤ r ∧
       r < min ((frame + thalf) * nppf) num_points ∧
       frame * nppf ≤ c ∧ c < min ((frame + 1) * nppf) num_points
    then 1 else m r c

def tagMask (num_points num_frames t : Nat) : Nat → Nat → Nat :=
  (List.range num_frames).foldl
    (maskStep num_points (num_points / num_frames) (t / 2)) (fun _ _ => 0)

theorem maskStep_thalf_zero (np nppf : Nat) (m : Nat → Nat → Nat) (frame : Nat) :
    maskStep np nppf 0 m frame = m := by
  funext r c
  simp only [maskStep, Nat.add_zero]
  rw [if_neg]
  rintro ⟨h1, h2, -, -⟩
  rw [if_neg (Nat.not_lt_zero frame), Nat.sub_zero] at h1
  omega

theorem foldl_maskStep_thalf_zero (np nppf : Nat) (l : List Nat)
    (init : Nat → Nat → Nat) :
    l.foldl (maskStep np nppf 0) init = init := by
  induction l generalizing init with
  | nil => rfl
  | cons a t ih => rw [List.foldl_cons, maskStep_thalf_zero]; exact ih init

/-- C10: with t = 1 (an odd value accepted by the constructor assertion),
every row range written by the mask loop is the empty range
[frame * nppf, frame * nppf), so the precomputed temporal mask of
TemporalAutomatedGraphDynamicEdgeConv stays all-zero: no (target, source)
point pair is ever allowed by the mask. -/
theorem tagMask_t_one_all_zero (num_points num_frames r c : Nat) :
    tagMask num_points num_frames 1 r c = 0 := by
  unfold tagMask
  rw [show (1 : Nat) / 2 = 0 from rfl, foldl_maskStep_thalf_zero]

/-- C1 (code behaviour at the failing input): with num_points = 4,
num_frames = 2, t = 3 (so nppf = 2 and t//2 = 1), the mask entry at
row 2 (a point of frame 1) and column 0 (a point of frame 0) is 0,
although the frames are within distance t//2 = 1 of each other: the row
block for source frame 0 ends at (0 + t//2) * nppf = 2, excluding the
frame t//2 after the source frame. -/
theorem tagMask_row_block_short : tagMask 4 2 3 2 0 = 0 ∧ tagMask 4 2 3 1 0 = 1 := by
  constructor <;> rfl

/-! ### Batch offset table (point_index_corrector)

The constructor precomputes
  torch.tensor([i * num_points for i in range(batch_size)])
    .reshape(-1, 1).repeat(1, num_points * k)
    .reshape(batch_size, num_points * k, 1).repeat(1, 1, 2)
    .permute(0, 2, 1)
a (batch_size, 2, num_points * k) tensor, modelled below as its row-major
flat list.  repeat along the last axis of a (.., 1)-shaped tensor repeats
each flat element consecutively; permute(0, 2, 1) gathers element
(i, a, b) of the result from element (i, b, a) of its input. -/

def flatRepeat (m : Nat) (l : List Nat) : List Nat :=
  l.flatMap (fun v => List.replicate m v)

theorem flatRepeat_cons (m a : Nat) (t : List Nat) :
    flatRepeat m (a :: t) = List.replicate m a ++ flatRepeat m t := by
  simp [flatRepeat]

theorem flatRepeat_length (m : Nat) (l : List Nat) :
    (flatRepeat m l).length = l.length * m := by
  induction l with
  | nil => simp [flatRepeat]
  | cons a t ih =>
      rw [flatRepeat_cons, List.length_append, List.length_replicate, ih,
        List.length_cons]
      ring

theorem flatRepeat_getD (m : Nat) (l : List Nat) (j : Nat)
    (hj : j < l.length * m) (d : Nat) :
    (flatRepeat m l).getD j d = l.getD (j / m) d := by
  induction l generalizing j with
  | nil => simp at hj
  | cons a t ih =>
      have hm : 0 < m := by
        rcases Nat.eq_zero_or_pos m with h | h
        · subst h; simp at hj
        · exact h
      rw [flatRepeat_cons]
      by_cases hjm : j < m
      · rw [List.getD_append _ _ _ _ (by simpa using hjm)]
        rw [List.getD_eq_getElem?_getD, List.getElem?_replicate_of_lt hjm]
        rw [Nat.div_eq_of_lt hjm]
        rfl
      · push_neg at hjm
        rw [List.getD_append_right _ _ _ _ (by simpa using hjm)]
        simp only [List.length_replicate]
        have hlt : j - m < t.length * m := by
          simp only [List.length_cons] at hj
          have : j < m + t.length * m := by
            calc j < (t.length + 1) * m := hj
            _ = m + t.length * m := by ring
          omega
        rw [ih (j - m) hlt]
        have hdiv : j / m = (j - m) / m + 1 := by
          conv_lhs => rw [show j = (j - m) + m by omega]
          rw [Nat.add_div_right _ hm]
        rw [hdiv]
        rfl

theorem range_map_getD {α : Type} (n idx : Nat) (f : Nat → α) (d : α)
    (h : idx < n) :
    ((List.range n).map f).getD idx d = f idx := by
  rw [List.getD_eq_getElem?_getD, List.getElem?_map, List.getElem?_range h]
  rfl

/-- The gather performed by permute(0, 2, 1) on the flat layout: result
element at flat index idx of shape (batch_size, 2, num_points * k) comes
from flat position ((i * npk + b) * 2 + a) of the twice-repeated list. -/
def picGather (batch_size num_points k : Nat) (idx : Nat) : Nat :=
  let npk := num_points * k
  let base := (List.range batch_size).map (fun i => i * num_points)
  let r2 := flatRepeat 2 (flatRepeat npk base)
  let i := idx / (2 * npk)
  let rem := idx % (2 * npk)
  let a := rem / npk
  let b := rem % npk
  r2.getD ((i * npk + b) * 2 + a) 0

def point_index_corrector (batch_size num_points k : Nat) : List Nat :=
  (List.range (batch_size * (2 * (num_points * k)))).map
    (picGather batch_size num_points k)

theorem picGather_eq (bs np k idx : Nat) (hnpk : 0 < np * k)
    (hidx : idx < bs * (2 * (np * k))) :
    picGather bs np k idx = (idx / (2 * (np * k))) * np := by
  set npk := np * k with hnpkdef
  have h2 : 0 < 2 * npk := by omega
  set i := idx / (2 * npk) with hi
  set rem := idx % (2 * npk) with hrem
  have hibd : i < bs := by
    rw [hi]
    exact Nat.div_lt_of_lt_mul (by linarith [hidx])
  have hrembd : rem < 2 * npk := Nat.mod_lt _ h2
  set a := rem / npk with ha
  set b := rem % npk with hb
  have habd : a < 2 := by
    rw [ha]
    exact Nat.div_lt_of_lt_mul (by omega)
  have hbbd : b < npk := Nat.mod_lt _ hnpk
  show (flatRepeat 2 (flatRepeat npk ((List.range bs).map (fun i => i * np)))).getD
      ((i * npk + b) * 2 + a) 0 = i * np
  have hlen1 : (flatRepeat npk ((List.range bs).map (fun i => i * np))).length
      = bs * npk := by
    rw [flatRepeat_length, List.length_map, List.length_range]
  have hpos : (i * npk + b) * 2 + a < (bs * npk) * 2 := by nlinarith
  rw [flatRepeat_getD 2 _ _ (by rw [hlen1]; exact hpos) 0]
  have hq : ((i * npk + b) * 2 + a) / 2 = i * npk + b := by
    rw [Nat.mul_comm (i * npk + b) 2, Nat.mul_add_div (by norm_num),
      Nat.div_eq_of_lt habd, Nat.add_zero]
  rw [hq]
  rw [flatRepeat_getD npk _ _ (by rw [List.length_map, List.length_range]; nlinarith) 0]
  have hq2 : (i * npk + b) / npk = i := by
    rw [Nat.mul_comm i npk, Nat.mul_add_div hnpk, Nat.div_eq_of_lt hbbd,
      Nat.add_zero]
  rw [hq2, range_map_getD bs i _ 0 hibd]

theorem point_index_corrector_entry (bs np k i a j : Nat) (hnpk : 0 < np * k)
    (hi : i < bs) (ha : a < 2) (hj : j < np * k) :
    (point_index_corrector bs np k).getD
      (i * (2 * (np * k)) + a * (np * k) + j) 0 = i * np := by
  set idx := i * (2 * (np * k)) + a * (np * k) + j with hidxdef
  have hsum : a * (np * k) + j < 2 * (np * k) := by
    have ha1 : a ≤ 1 := by omega
    have := Nat.mul_le_mul_right (np * k) ha1
    omega
  have hidx : idx < bs * (2 * (np * k)) := by
    calc idx = i * (2 * (np * k)) + (a * (np * k) + j) := by
          rw [hidxdef]; ring
    _ < i * (2 * (np * k)) + 2 * (np * k) := by omega
    _ = (i + 1) * (2 * (np * k)) := by ring
    _ ≤ bs * (2 * (np * k)) := Nat.mul_le_mul_right _ hi
  rw [point_index_corrector, range_map_getD _ _ _ _ hidx,
    picGather_eq bs np k idx hnpk hidx]
  have : idx / (2 * (np * k)) = i := by
    rw [hidxdef, Nat.add_assoc, Nat.mul_comm i (2 * (np * k)),
      Nat.add_comm, Nat.add_mul_div_left _ _ (by omega),
      Nat.div_eq_of_lt hsum, Nat.zero_add]
  rw [this]

theorem point_index_corrector_take (bs b np k : Nat) (hb : b ≤ bs) :
    (point_index_corrector bs np k).take (b * (2 * (np * k)))
      = point_index_corrector b np k := by
  rcases Nat.eq_zero_or_pos (np * k) with h0 | hpos
  · simp [point_index_corrector, h0]
  unfold point_index_corrector
  rw [← List.map_take, List.take_range,
    Nat.min_eq_left (Nat.mul_le_mul_right _ hb)]
  apply List.map_congr_left
  intro idx hidx
  rw [List.mem_range] at hidx
  rw [picGather_eq bs np k idx hpos
      (lt_of_lt_of_le hidx (Nat.mul_le_mul_right _ hb)),
    picGather_eq b np k idx hpos hidx]

/-- C4: when the actual batch size b is at most the configured batch_size,
the offset table applied in forward (point_index_corrector[:b]) is exactly
the first b rows of the precomputed table, i.e. the table that would be
built for b samples, whose row i adds i * num_points everywhere; and for
every local edge index e < num_points added to an entry of that truncated
table, the corrected global index is strictly below num_points * b. -/
theorem corrector_truncation_sound (bs b np k i a j e : Nat)
    (hb : b ≤ bs) (hnpk : 0 < np * k) (hi : i < b) (ha : a < 2)
    (hj : j < np * k) (he : e < np) :
    (point_index_corrector bs np k).take (b * (2 * (np * k)))
        = point_index_corrector b np k ∧
      e + ((point_index_corrector bs np k).take (b * (2 * (np * k)))).getD
          (i * (2 * (np * k)) + a * (np * k) + j) 0 < np * b := by
  refine ⟨point_index_corrector_take bs b np k hb, ?_⟩
  rw [point_index_corrector_take bs b np k hb,
    point_index_corrector_entry b np k i a j hnpk hi ha hj]
  calc e + i * np < np + i * np := by omega
  _ = (i + 1) * np := by ring
  _ ≤ b * np := Nat.mul_le_mul_right _ hi
  _ = np * b := Nat.mul_comm _ _

theorem corrector_truncation_sound_witness :
    (point_index_corrector 2 1 1).take (1 * (2 * (1 * 1)))
        = point_index_corrector 1 1 1 ∧
      0 + ((point_index_corrector 2 1 1).take (1 * (2 * (1 * 1)))).getD
          (0 * (2 * (1 * 1)) + 0 * (1 * 1) + 0) 0 < 1 * 1 :=
  corrector_truncation_sound 2 1 1 1 0 0 0 0 (by decide) (by decide)
    (by decide) (by decide) (by decide) (by decide)

/-! ### make_proper_data

The function receives per-point data rows, per-point sequence numbers and
per-point sample ids laid out sample-major, then frame-major, then
point-major (B samples, F frames, P points per frame), and computes
  source_batch = batch * frame_number + sequence_number - 1
  target       = data.reshape(B, 1, F, P, D).repeat(1, F, 1, 1, 1)
                     .reshape(B, F * F, P, D)[:, mask == 1]
  index_mapper = the same pipeline applied to arange(len(data))
  target_batch = source_batch.reshape(-1, 1).repeat(1, F)
                     .reshape(B, F * F, P)[:, mask == 1]
where the (F, F) mask is built from two triangular matrices.  Element
(b, i, j, p) of the repeated tensor is original element (b, j, p), and
chunk m = i * F + j of the reshaped dim-1 is kept iff mask[i][j] == 1. -/

def tril_entry (d : Int) (i j : Nat) : Int :=
  if (j : Int) ≤ (i : Int) + d then 1 else 0

def mpd_mask (T : Nat) (self_loop : Bool) (i j : Nat) : Int :=
  (if self_loop then tril_entry 0 i j
   else if i = 0 ∧ j = 0 then 1 else tril_entry (-1) i j)
  - tril_entry (-(T : Int) - 1) i j

def mpd_keep (T : Nat) (self_loop : Bool) (i j : Nat) : Bool :=
  mpd_mask T self_loop i j == 1

def layout_batch (F P u : Nat) : Nat := u / (F * P)

def layout_seq (F P u : Nat) : Nat := (u / P) % F + 1

def mpd_source_batch (B F P : Nat) : List Nat :=
  (List.range (B * (F * P))).map
    (fun u => layout_batch F P u * F + layout_seq F P u - 1)

def mpd_index_mapper (B F P T : Nat) (self_loop : Bool) : List Nat :=
  (List.range B).flatMap fun b =>
    (List.range F).flatMap fun i =>
      (List.range F).flatMap fun j =>
        if mpd_keep T self_loop i j then
          (List.range P).map (fun p => b * (F * P) + j * P + p)
        else []

def mpd_target {α : Type} (data : List α) (dflt : α) (B F P T : Nat)
    (self_loop : Bool) : List α :=
  (List.range B).flatMap fun b =>
    (List.range F).flatMap fun i =>
      (List.range F).flatMap fun j =>
        if mpd_keep T self_loop i j then
          (List.range P).map (fun p => data.getD (b * (F * P) + j * P + p) dflt)
        else []

def mpd_target_batch (B F P T : Nat) (self_loop : Bool) : List Nat :=
  (List.range B).flatMap fun b =>
    (List.range F).flatMap fun i =>
      (List.range F).flatMap fun j =>
        if mpd_keep T self_loop i j then
          (List.range P).map (fun p =>
            (flatRepeat F (mpd_source_batch B F P)).getD
              (b * (F * F * P) + (i * F + j) * P + p) 0)
        else []

/-- The frame (1-based) of the candidate occupying each target position. -/
def mpd_frames (B F P T : Nat) (self_loop : Bool) : List Nat :=
  (List.range B).flatMap fun b =>
    (List.range F).flatMap fun i =>
      (List.range F).flatMap fun j =>
        if mpd_keep T self_loop i j then
          (List.range P).map (fun _ => j + 1)
        else []

/-- The (sample, source frame, target frame, point) coordinates traversed by
the replicate-and-mask pipeline, in output order. -/
def mpd_cells (B F P T : Nat) (self_loop : Bool) :
    List (Nat × Nat × Nat × Nat) :=
  (List.range B).flatMap fun b =>
    (List.range F).flatMap fun i =>
      (List.range F).flatMap fun j =>
        if mpd_keep T self_loop i j then
          (List.range P).map (fun p => (b, i, j, p))
        else []

structure MPDResult (α : Type) where
  source : List α
  source_batch : List Nat
  target : List α
  target_batch : List Nat
  index_mapper : List Nat

def make_proper_data {α : Type} (data : List α) (dflt : α) (B F P T : Nat)
    (self_loop : Bool) : MPDResult α where
  source := data
  source_batch := mpd_source_batch B F P
  target := mpd_target data dflt B F P T self_loop
  target_batch := mpd_target_batch B F P T self_loop
  index_mapper := mpd_index_mapper B F P T self_loop

theorem mpd_index_mapper_eq_cells (B F P T : Nat) (sl : Bool) :
    mpd_index_mapper B F P T sl = (mpd_cells B F P T sl).map
      (fun c => c.1 * (F * P) + c.2.2.1 * P + c.2.2.2) := by
  simp only [mpd_index_mapper, mpd_cells, List.map_flatMap,
    apply_ite (List.map (fun c : Nat × Nat × Nat × Nat =>
      c.1 * (F * P) + c.2.2.1 * P + c.2.2.2)), List.map_map, List.map_nil]
  rfl

theorem mpd_target_eq_cells {α : Type} (data : List α) (dflt : α)
    (B F P T : Nat) (sl : Bool) :
    mpd_target data dflt B F P T sl = (mpd_cells B F P T sl).map
      (fun c => data.getD (c.1 * (F * P) + c.2.2.1 * P + c.2.2.2) dflt) := by
  simp only [mpd_target, mpd_cells, List.map_flatMap,
    apply_ite (List.map (fun c : Nat × Nat × Nat × Nat =>
      data.getD (c.1 * (F * P) + c.2.2.1 * P + c.2.2.2) dflt)),
    List.map_map, List.map_nil]
  rfl

theorem mpd_frames_eq_cells (B F P T : Nat) (sl : Bool) :
    mpd_frames B F P T sl = (mpd_cells B F P T sl).map
      (fun c => c.2.2.1 + 1) := by
  simp only [mpd_frames, mpd_cells, List.map_flatMap,
    apply_ite (List.map (fun c : Nat × Nat × Nat × Nat => c.2.2.1 + 1)),
    List.map_map, List.map_nil]
  rfl

theorem layout_seq_at (F P b j p : Nat) (hj : j < F) (hp : p < P) :
    layout_seq F P (b * (F * P) + j * P + p) = j + 1 := by
  unfold layout_seq
  have hP : 0 < P := by omega
  have h1 : (b * (F * P) + j * P + p) / P = b * F + j := by
    rw [show b * (F * P) + j * P + p = p + P * (b * F + j) by ring,
      Nat.add_mul_div_left _ _ hP, Nat.div_eq_of_lt hp, Nat.zero_add]
  rw [h1, show b * F + j = j + F * b by ring, Nat.add_mul_mod_self_left,
    Nat.mod_eq_of_lt hj]

theorem mpd_cells_mem (B F P T : Nat) (sl : Bool) (c : Nat × Nat × Nat × Nat)
    (hc : c ∈ mpd_cells B F P T sl) :
    c.1 < B ∧ c.2.1 < F ∧ c.2.2.1 < F ∧ c.2.2.2 < P ∧
      mpd_keep T sl c.2.1 c.2.2.1 = true := by
  simp only [mpd_cells, List.mem_flatMap, List.mem_range] at hc
  obtain ⟨b, hb, i, hi, j, hj, hmem⟩ := hc
  by_cases hk : mpd_keep T sl i j
  · rw [if_pos hk] at hmem
    simp only [List.mem_map, List.mem_range] at hmem
    obtain ⟨p, hp, rfl⟩ := hmem
    exact ⟨hb, hi, hj, hp, hk⟩
  · rw [if_neg hk] at hmem
    simp at hmem

theorem mpd_keep_false_iff (T i j : Nat) (hT : 1 ≤ T) :
    mpd_keep T false i j = true
      ↔ ((i = 0 ∧ j = 0) ∨ (j < i ∧ i ≤ j + T)) := by
  unfold mpd_keep mpd_mask tril_entry
  rw [beq_iff_eq]
  simp only [Bool.false_eq_true, if_false]
  split_ifs <;> omega

theorem flatMap_congr {α β : Type} (l : List α) (f g : α → List β)
    (h : ∀ a ∈ l, f a = g a) : l.flatMap f = l.flatMap g := by
  induction l with
  | nil => rfl
  | cons a t ih =>
      rw [List.flatMap_cons, List.flatMap_cons, h a (List.mem_cons_self a t),
        ih (fun x hx => h x (List.mem_cons_of_mem a hx))]

theorem mpd_target_batch_entry (B F P b i j p : Nat) (hb : b < B)
    (hi : i < F) (hj : j < F) (hp : p < P) :
    (flatRepeat F (mpd_source_batch B F P)).getD
      (b * (F * F * P) + (i * F + j) * P + p) 0 = b * F + i := by
  have hF : 0 < F := by omega
  have hP : 0 < P := by omega
  have hlen : (mpd_source_batch B F P).length = B * (F * P) := by
    rw [mpd_source_batch, List.length_map, List.length_range]
  have hij : i * F + j + 1 ≤ F * F := by
    have h2 : (i + 1) * F ≤ F * F := Nat.mul_le_mul_right _ hi
    have h3 : i * F + F = (i + 1) * F := by ring
    omega
  have hchunk : (i * F + j) * P + p < F * F * P := by
    have h4 : (i * F + j + 1) * P ≤ F * F * P := Nat.mul_le_mul_right _ hij
    have h5 : (i * F + j) * P + P = (i * F + j + 1) * P := by ring
    omega
  have hpos : b * (F * F * P) + (i * F + j) * P + p < B * (F * P) * F := by
    have h6 : (b + 1) * (F * F * P) ≤ B * (F * F * P) :=
      Nat.mul_le_mul_right _ hb
    have h7 : b * (F * F * P) + F * F * P = (b + 1) * (F * F * P) := by ring
    have h8 : B * (F * F * P) = B * (F * P) * F := by ring
    omega
  rw [flatRepeat_getD F _ _ (by rw [hlen]; exact hpos) 0]
  set s := (j * P + p) / F with hs
  have hslt : s < P := by
    rw [hs]
    apply Nat.div_lt_of_lt_mul
    have h9 : (j + 1) * P ≤ F * P := Nat.mul_le_mul_right _ hj
    have h10 : j * P + P = (j + 1) * P := by ring
    have h11 : F * P = P * F := by ring
    omega
  have hdiv : (b * (F * F * P) + (i * F + j) * P + p) / F
      = b * (F * P) + i * P + s := by
    rw [show b * (F * F * P) + (i * F + j) * P + p
        = (j * P + p) + F * (b * (F * P) + i * P) by ring,
      Nat.add_mul_div_left _ _ hF, hs]
    ring
  rw [hdiv]
  have hiPs : i * P + s < F * P := by
    have h12 : (i + 1) * P ≤ F * P := Nat.mul_le_mul_right _ hi
    have h13 : i * P + P = (i + 1) * P := by ring
    omega
  have hu : b * (F * P) + i * P + s < B * (F * P) := by
    have h14 : (b + 1) * (F * P) ≤ B * (F * P) := Nat.mul_le_mul_right _ hb
    have h15 : b * (F * P) + F * P = (b + 1) * (F * P) := by ring
    omega
  rw [mpd_source_batch, range_map_getD _ _ _ _ hu]
  have hlb : layout_batch F P (b * (F * P) + i * P + s) = b := by
    rw [layout_batch, show b * (F * P) + i * P + s
        = (i * P + s) + (F * P) * b by ring,
      Nat.add_mul_div_left _ _ (Nat.mul_pos hF hP), Nat.div_eq_of_lt hiPs,
      Nat.zero_add]
  have hls : layout_seq F P (b * (F * P) + i * P + s) = i + 1 := by
    rw [layout_seq, show b * (F * P) + i * P + s
        = s + P * (i + F * b) by ring,
      Nat.add_mul_div_left _ _ hP, Nat.div_eq_of_lt hslt, Nat.zero_add,
      Nat.add_mul_mod_self_left, Nat.mod_eq_of_lt hi]
  rw [hlb, hls]
  omega

theorem mpd_target_batch_eq_cells (B F P T : Nat) (sl : Bool) :
    mpd_target_batch B F P T sl = (mpd_cells B F P T sl).map
      (fun c => c.1 * F + c.2.1) := by
  rw [mpd_target_batch, mpd_cells, List.map_flatMap]
  apply flatMap_congr
  intro b hb
  rw [List.map_flatMap]
  apply flatMap_congr
  intro i hi
  rw [List.map_flatMap]
  apply flatMap_congr
  intro j hj
  rw [List.mem_range] at hb hi hj
  by_cases hk : mpd_keep T sl i j
  · rw [if_pos hk, if_pos hk, List.map_map]
    apply List.map_congr_left
    intro p hp
    rw [List.mem_range] at hp
    exact mpd_target_batch_entry B F P b i j p hb hi hj hp
  · rw [if_neg hk, if_neg hk]
    rfl

/-- C5: for data laid out as B samples of F frames of P points, every
position pos of the candidate target list built by make_proper_data is
mapped by index_mapper to the true flattened position of that candidate:
the target row at pos is the data row at index_mapper[pos], and the
per-point sequence number at index_mapper[pos] is the candidate's frame. -/
theorem mpd_index_mapper_sound {α : Type} (data : List α) (dflt : α)
    (B F P T : Nat) (sl : Bool) (hlen : data.length = B * (F * P))
    (pos : Nat) (hpos : pos < (mpd_index_mapper B F P T sl).length) :
    (mpd_target data dflt B F P T sl).getD pos dflt
        = data.getD ((mpd_index_mapper B F P T sl).getD pos 0) dflt
      ∧ layout_seq F P ((mpd_index_mapper B F P T sl).getD pos 0)
        = (mpd_frames B F P T sl).getD pos 0 := by
  have hposc : pos < (mpd_cells B F P T sl).length := by
    rw [mpd_index_mapper_eq_cells, List.length_map] at hpos
    exact hpos
  have hmem : (mpd_cells B F P T sl)[pos] ∈ mpd_cells B F P T sl :=
    List.getElem_mem hposc
  obtain ⟨hb, hi, hj, hp, hk⟩ := mpd_cells_mem B F P T sl _ hmem
  have hmap : ∀ {β : Type} (f : Nat × Nat × Nat × Nat → β) (d : β),
      ((mpd_cells B F P T sl).map f).getD pos d
        = f ((mpd_cells B F P T sl)[pos]) := by
    intro β f d
    rw [List.getD_eq_getElem?_getD, List.getElem?_map,
      List.getElem?_eq_getElem hposc]
    rfl
  constructor
  · rw [mpd_target_eq_cells, mpd_index_mapper_eq_cells, hmap, hmap]
  · rw [mpd_frames_eq_cells, mpd_index_mapper_eq_cells, hmap, hmap]
    exact layout_seq_at F P _ _ _ hj hp

theorem mpd_index_mapper_sound_witness :
    ((mpd_target [10, 20] 0 1 2 1 1 false).getD 0 0
        = [10, 20].getD ((mpd_index_mapper 1 2 1 1 false).getD 0 0) 0
      ∧ layout_seq 2 1 ((mpd_index_mapper 1 2 1 1 false).getD 0 0)
        = (mpd_frames 1 2 1 1 false).getD 0 0) :=
  mpd_index_mapper_sound [10, 20] 0 1 2 1 1 false (by decide) 0 (by decide)

/-- C6: for two calls of make_proper_data over the same layout (same
sequence numbers, batch ids, self_loop and T) but arbitrary different
point feature values, the returned source_batch, target_batch and
index_mapper coincide: the candidate structure is a function of frame
counts, sample counts and T only. -/
theorem mpd_data_independence {α β : Type} (d1 : List α) (d2 : List β)
    (df1 : α) (df2 : β) (B F P T : Nat) (sl : Bool)
    (h1 : d1.length = B * (F * P)) (h2 : d2.length = B * (F * P)) :
    (make_proper_data d1 df1 B F P T sl).source_batch
        = (make_proper_data d2 df2 B F P T sl).source_batch
      ∧ (make_proper_data d1 df1 B F P T sl).target_batch
        = (make_proper_data d2 df2 B F P T sl).target_batch
      ∧ (make_proper_data d1 df1 B F P T sl).index_mapper
        = (make_proper_data d2 df2 B F P T sl).index_mapper :=
  ⟨rfl, rfl, rfl⟩

theorem mpd_data_independence_witness :
    (make_proper_data [5, 7] 0 1 2 1 1 false).source_batch
        = (make_proper_data [true, false] true 1 2 1 1 false).source_batch
      ∧ (make_proper_data [5, 7] 0 1 2 1 1 false).target_batch
        = (make_proper_data [true, false] true 1 2 1 1 false).target_batch
      ∧ (make_proper_data [5, 7] 0 1 2 1 1 false).index_mapper
        = (make_proper_data [true, false] true 1 2 1 1 false).index_mapper :=
  mpd_data_independence [5, 7] [true, false] 0 true 1 2 1 1 false
    (by decide) (by decide)

/-- C2: for self_loop = false and window T >= 1, the candidate pipeline
pairs a source point of 1-based frame f with target points of 1-based
frame g exactly when g lies in the inclusive range [max(1, f - T), f - 1],
except f = 1 whose only candidate frame is 1 itself.  In particular for
T = 2 and F = 4: frame 3 pairs with frames 1-2 only, frame 4 with
frames 2-3 only, and frame 1 with frame 1 only.  The second conjunct
shows the kept chunk (b, i, j) indeed carries the grouping key of source
frame i of sample b, so the chunk's points are candidates of frame i+1. -/
theorem strict_causal_candidate_frames (B F P T b f g p : Nat) (hT : 1 ≤ T)
    (hb : b < B) (hf1 : 1 ≤ f) (hfF : f ≤ F) (hg1 : 1 ≤ g) (hgF : g ≤ F)
    (hp : p < P) :
    ((b, f - 1, g - 1, p) ∈ mpd_cells B F P T false
      ↔ (if f = 1 then g = 1 else max 1 (f - T) ≤ g ∧ g ≤ f - 1))
    ∧ mpd_target_batch B F P T false = (mpd_cells B F P T false).map
        (fun c => c.1 * F + c.2.1) := by
  refine ⟨?_, mpd_target_batch_eq_cells B F P T false⟩
  have hkeep := mpd_keep_false_iff T (f - 1) (g - 1) hT
  constructor
  · intro h
    obtain ⟨-, -, -, -, hk⟩ := mpd_cells_mem B F P T false _ h
    rw [hkeep] at hk
    simp only [max_le_iff]
    split_ifs <;> omega
  · intro h
    have hk : mpd_keep T false (f - 1) (g - 1) = true := by
      rw [hkeep]
      simp only [max_le_iff] at h
      split_ifs at h <;> omega
    simp only [mpd_cells, List.mem_flatMap, List.mem_range]
    exact ⟨b, hb, f - 1, by omega, g - 1, by omega,
      by rw [if_pos hk]; exact List.mem_map.2 ⟨p, List.mem_range.2 hp, rfl⟩⟩

theorem strict_causal_candidate_frames_witness :
    (((0, 3 - 1, 2 - 1, 0) ∈ mpd_cells 1 4 1 2 false
      ↔ (if 3 = 1 then 2 = 1 else max 1 (3 - 2) ≤ 2 ∧ 2 ≤ 3 - 1))
    ∧ mpd_target_batch 1 4 1 2 false = (mpd_cells 1 4 1 2 false).map
        (fun c => c.1 * 4 + c.2.1)) :=
  strict_causal_candidate_frames 1 4 1 2 0 3 2 0 (by decide) (by decide)
    (by decide) (by decide) (by decide) (by decide) (by decide)

/-- C7: for any window T >= 1 with self_loop = false, the (1,1) cell of
the frame-pair mask is 1 after both triangular-matrix operations, so the
candidate target list for frame 1 of any sample is non-empty: it contains
frame 1 itself. -/
theorem frame_one_candidates_nonempty (B F P T b : Nat) (hT : 1 ≤ T)
    (hF : 1 ≤ F) (hP : 1 ≤ P) (hb : b < B) :
    mpd_mask T false 0 0 = 1 ∧ (b, 0, 0, 0) ∈ mpd_cells B F P T false := by
  have hk : mpd_keep T false 0 0 = true := by
    rw [mpd_keep_false_iff T 0 0 hT]
    exact Or.inl ⟨rfl, rfl⟩
  constructor
  · unfold mpd_keep at hk
    exact beq_iff_eq.mp hk
  · simp only [mpd_cells, List.mem_flatMap, List.mem_range]
    exact ⟨b, hb, 0, by omega, 0, by omega,
      by rw [if_pos hk]; exact List.mem_map.2 ⟨0, List.mem_range.2 (by omega), rfl⟩⟩

theorem frame_one_candidates_nonempty_witness :
    mpd_mask 1 false 0 0 = 1 ∧ (0, 0, 0, 0) ∈ mpd_cells 1 1 1 1 false :=
  frame_one_candidates_nonempty 1 1 1 1 0 (by decide) (by decide)
    (by decide) (by decide)

/-! ### Adjacent-frame pairing variants

TemporalDynamicEdgeConv, TemporalAttentionDynamicEdgeConv and
TemporalSelfAttentionDynamicEdgeConv all compute
  b_list = [batch * num_frames + sequence_number - 1,
            batch * num_frames + sequence_number - 2]
and then replace selected entries of b_list[1] by b_list[0] with
torch.where.  TemporalDynamicEdgeConv selects
(sequence_number == 1) | (sequence_number == num_frames); the two
attention variants select only (sequence_number == 1). -/

def combined_group (num_frames batch seq : Int) : Int :=
  batch * num_frames + seq - 1

def tdec_b1 (num_frames batch seq : Int) : Int :=
  if seq = 1 ∨ seq = num_frames then batch * num_frames + seq - 1
  else batch * num_frames + seq - 2

def taec_b1 (num_frames batch seq : Int) : Int :=
  if seq = 1 then batch * num_frames + seq - 1
  else batch * num_frames + seq - 2

def tsaec_b1 (num_frames batch seq : Int) : Int :=
  if seq = 1 then batch * num_frames + seq - 1
  else batch * num_frames + seq - 2

/-- C3 (counterexample): in TemporalAttentionDynamicEdgeConv and
TemporalSelfAttentionDynamicEdgeConv, a point of the last frame
(seq = num_frames = 2, batch 0) is NOT assigned its own combined group id:
the torch.where condition tests sequence_number == 1 only, so the point
keeps the previous frame's group id 0 instead of its own id 1. -/
theorem last_frame_not_own_group :
    taec_b1 2 0 2 ≠ combined_group 2 0 2
      ∧ tsaec_b1 2 0 2 ≠ combined_group 2 0 2 := by
  constructor <;> decide

/-- C3 (amended): only TemporalDynamicEdgeConv assigns a point whose
sequence number is 1 or num_frames its own combined group id before k-NN;
the two attention variants do so only for sequence number 1, and give a
point of the last frame (when num_frames >= 2) the previous frame's group
id batch * num_frames + seq - 2. -/
theorem boundary_frame_groups (num_frames batch seq : Int)
    (h1 : 1 ≤ seq) (h2 : seq ≤ num_frames) :
    (seq = 1 ∨ seq = num_frames →
      tdec_b1 num_frames batch seq = combined_group num_frames batch seq)
    ∧ (seq = 1 →
      taec_b1 num_frames batch seq = combined_group num_frames batch seq
        ∧ tsaec_b1 num_frames batch seq = combined_group num_frames batch seq)
    ∧ (seq = num_frames ∧ seq ≠ 1 →
      taec_b1 num_frames batch seq = batch * num_frames + seq - 2
        ∧ tsaec_b1 num_frames batch seq = batch * num_frames + seq - 2) := by
  unfold tdec_b1 taec_b1 tsaec_b1 combined_group
  refine ⟨fun h => if_pos h, fun h => ?_, fun h => ?_⟩
  · rw [if_pos h]
    exact ⟨rfl, rfl⟩
  · rw [if_neg h.2]
    exact ⟨rfl, rfl⟩

theorem boundary_frame_groups_witness :
    ((2 : Int) = 1 ∨ (2 : Int) = 2 → tdec_b1 2 0 2 = combined_group 2 0 2)
    ∧ ((2 : Int) = 1 → taec_b1 2 0 2 = combined_group 2 0 2
        ∧ tsaec_b1 2 0 2 = combined_group 2 0 2)
    ∧ ((2 : Int) = 2 ∧ (2 : Int) ≠ 1 → taec_b1 2 0 2 = 0 * 2 + 2 - 2
        ∧ tsaec_b1 2 0 2 = 0 * 2 + 2 - 2) :=
  boundary_frame_groups 2 0 2 (by decide) (by decide)

/-! ### aggregate of TemporalAutomatedGraphDynamicEdgeConv

aggregate reshapes the (n, d) message tensor to (n // k, k, d); torch
raises a shape-mismatch error iff the element counts differ, i.e. iff
(n // k) * k * d differs from n * d. -/

def aggregate_reshape (n k d : Nat) : Option (Nat × Nat × Nat) :=
  if (n / k) * k * d = n * d then some (n / k, k, d) else none

/-- C8: with k > 0 and a positive feature width, the reshape performed by
TemporalAutomatedGraphDynamicEdgeConv.aggregate succeeds iff the number
of incoming messages is an exact multiple of k; otherwise it signals a
shape mismatch (models the torch reshape error) instead of truncating. -/
theorem aggregate_reshape_iff_dvd (n k d : Nat) (hk : 0 < k) (hd : 0 < d) :
    (aggregate_reshape n k d).isSome = true ↔ n % k = 0 := by
  unfold aggregate_reshape
  split_ifs with h
  · simp only [Option.isSome_some, true_iff]
    have h2 : (n / k) * k = n := Nat.eq_of_mul_eq_mul_right hd h
    exact Nat.mod_eq_zero_of_dvd ((Nat.dvd_iff_div_mul_eq n k).mpr h2)
  · simp only [Option.isSome_none, Bool.false_eq_true, false_iff]
    intro hmod
    apply h
    rw [Nat.div_mul_cancel (Nat.dvd_iff_mod_eq_zero.mpr hmod)]

theorem aggregate_reshape_iff_dvd_witness :
    ((aggregate_reshape 4 2 1).isSome = true ↔ 4 % 2 = 0)
      ∧ (aggregate_reshape 5 2 1).isSome = false :=
  ⟨aggregate_reshape_iff_dvd 4 2 1 (by decide) (by decide), by decide⟩

/-! ### Net.forward of the classifier head

Net.forward normalizes the raw per-point sequence numbers in place
  sequence_numbers -= sequence_numbers.min()
  sequence_numbers /= sequence_numbers.max()
and at the end rebuilds
  unscaled = (num_frames - 1) * ((s - s.min()) / (s.max() - s.min())) + 1
from the normalized values s.  Real arithmetic is modelled exactly over
the rationals; tmin and tmax are the tensor-wide min and max reductions. -/

def tmin : List ℚ → ℚ
  | [] => 0
  | a :: t => t.foldl min a

def tmax : List ℚ → ℚ
  | [] => 0
  | a :: t => t.foldl max a

def net_normalized_seq (l : List ℚ) : List ℚ :=
  (l.map (fun v => v - tmin l)).map
    (fun v => v / tmax (l.map (fun v => v - tmin l)))

def net_unscaled_seq (F : Nat) (s : List ℚ) : List ℚ :=
  s.map (fun v => ((F : ℚ) - 1) * ((v - tmin s) / (tmax s - tmin s)) + 1)

/-- The third value returned by Net.forward, as a function of the raw
sequence numbers. -/
def net_third_output (F : Nat) (l : List ℚ) : List ℚ :=
  net_unscaled_seq F (net_normalized_seq l)

theorem foldl_min_init_le (t : List ℚ) : ∀ a : ℚ, t.foldl min a ≤ a := by
  induction t with
  | nil => intro a; simp
  | cons b t2 ih =>
      intro a
      rw [List.foldl_cons]
      exact le_trans (ih (min a b)) (min_le_left a b)

theorem foldl_min_le_of_mem (t : List ℚ) :
    ∀ a x : ℚ, x ∈ t → t.foldl min a ≤ x := by
  induction t with
  | nil => intro a x hx; simp at hx
  | cons b t2 ih =>
      intro a x hx
      rw [List.foldl_cons]
      rcases List.mem_cons.mp hx with h | h
      · subst h
        exact le_trans (foldl_min_init_le t2 (min a x)) (min_le_right a x)
      · exact ih (min a b) x h

theorem tmin_le (l : List ℚ) (x : ℚ) (hx : x ∈ l) : tmin l ≤ x := by
  cases l with
  | nil => simp at hx
  | cons a t =>
      rcases List.mem_cons.mp hx with h | h
      · subst h; exact foldl_min_init_le t x
      · exact foldl_min_le_of_mem t a x h

theorem tmin_mem (l : List ℚ) (hl : l ≠ []) : tmin l ∈ l := by
  cases l with
  | nil => exact absurd rfl hl
  | cons a t =>
      show t.foldl min a ∈ a :: t
      clear hl
      induction t generalizing a with
      | nil => simp [List.foldl_nil]
      | cons b t2 ih =>
          rw [List.foldl_cons]
          rcases List.mem_cons.mp (ih (min a b)) with h | h
          · rw [h]
            rcases min_choice a b with hc | hc <;> rw [hc]
            · exact List.mem_cons_self a (b :: t2)
            · exact List.mem_cons_of_mem a (List.mem_cons_self b t2)
          · exact List.mem_cons_of_mem a (List.mem_cons_of_mem b h)

theorem le_foldl_max_init (t : List ℚ) : ∀ a : ℚ, a ≤ t.foldl max a := by
  induction t with
  | nil => intro a; simp
  | cons b t2 ih =>
      intro a
      rw [List.foldl_cons]
      exact le_trans (le_max_left a b) (ih (max a b))

theorem le_foldl_max_of_mem (t : List ℚ) :
    ∀ a x : ℚ, x ∈ t → x ≤ t.foldl max a := by
  induction t with
  | nil => intro a x hx; simp at hx
  | cons b t2 ih =>
      intro a x hx
      rw [List.foldl_cons]
      rcases List.mem_cons.mp hx with h | h
      · subst h
        exact le_trans (le_max_right a x) (le_foldl_max_init t2 (max a x))
      · exact ih (max a b) x h

theorem le_tmax (l : List ℚ) (x : ℚ) (hx : x ∈ l) : x ≤ tmax l := by
  cases l with
  | nil => simp at hx
  | cons a t =>
      rcases List.mem_cons.mp hx with h | h
      · subst h; exact le_foldl_max_init t x
      · exact le_foldl_max_of_mem t a x h

theorem tmax_mem (l : List ℚ) (hl : l ≠ []) : tmax l ∈ l := by
  cases l with
  | nil => exact absurd rfl hl
  | cons a t =>
      show t.foldl max a ∈ a :: t
      clear hl
      induction t generalizing a with
      | nil => simp [List.foldl_nil]
      | cons b t2 ih =>
          rw [List.foldl_cons]
          rcases List.mem_cons.mp (ih (max a b)) with h | h
          · rw [h]
            rcases max_choice a b with hc | hc <;> rw [hc]
            · exact List.mem_cons_self a (b :: t2)
            · exact List.mem_cons_of_mem a (List.mem_cons_self b t2)
          · exact List.mem_cons_of_mem a (List.mem_cons_of_mem b h)

/-- C9: when the raw per-point sequence numbers take every integer value
in [1, num_frames] and num_frames >= 2, the unscaled sequence numbers
returned as Net.forward's third value equal the raw input values:
normalizing to [0, 1] then rescaling by (num_frames - 1) and adding 1 is
a round trip (arithmetic modelled exactly over the rationals). -/
theorem net_seq_roundtrip (F : Nat) (l : List ℚ) (hF : 2 ≤ F)
    (hall : ∀ x ∈ l, ∃ m : Nat, 1 ≤ m ∧ m ≤ F ∧ x = (m : ℚ))
    (hattain : ∀ m : Nat, 1 ≤ m → m ≤ F → ((m : ℚ) ∈ l)) :
    net_third_output F l = l := by
  have h1mem : (1 : ℚ) ∈ l := by
    have := hattain 1 (by omega) (by omega)
    simpa using this
  have hFmem : ((F : ℚ)) ∈ l := hattain F (by omega) (by omega)
  have hne : l ≠ [] := by
    intro h
    rw [h] at h1mem
    simp at h1mem
  have hF1 : (0 : ℚ) < (F : ℚ) - 1 := by
    have h2 : (2 : ℚ) ≤ (F : ℚ) := by exact_mod_cast hF
    linarith
  have htmin : tmin l = 1 := by
    apply le_antisymm (tmin_le l 1 h1mem)
    obtain ⟨m, hm1, hmF, hx⟩ := hall (tmin l) (tmin_mem l hne)
    rw [hx]
    exact_mod_cast hm1
  have hshift_max : tmax (l.map (fun v => v - 1)) = (F : ℚ) - 1 := by
    apply le_antisymm
    · obtain ⟨x, hxl, hxe⟩ :=
        List.mem_map.mp (tmax_mem (l.map (fun v => v - 1)) (by simp [hne]))
      obtain ⟨m, hm1, hmF, rfl⟩ := hall x hxl
      rw [← hxe]
      have hc : (m : ℚ) ≤ (F : ℚ) := by exact_mod_cast hmF
      linarith
    · exact le_tmax _ _ (List.mem_map.mpr ⟨(F : ℚ), hFmem, rfl⟩)
  have hnorm : net_normalized_seq l
      = l.map (fun v => (v - 1) / ((F : ℚ) - 1)) := by
    unfold net_normalized_seq
    simp only [htmin, hshift_max, List.map_map]
    rfl
  have hs_min : tmin (l.map (fun v => (v - 1) / ((F : ℚ) - 1))) = 0 := by
    apply le_antisymm
    · apply tmin_le
      refine List.mem_map.mpr ⟨1, h1mem, ?_⟩
      simp
    · obtain ⟨x, hxl, hxe⟩ :=
        List.mem_map.mp (tmin_mem (l.map (fun v => (v - 1) / ((F : ℚ) - 1)))
          (by simp [hne]))
      obtain ⟨m, hm1, hmF, rfl⟩ := hall x hxl
      rw [← hxe]
      apply div_nonneg _ (le_of_lt hF1)
      have hc : (1 : ℚ) ≤ (m : ℚ) := by exact_mod_cast hm1
      linarith
  have hs_max : tmax (l.map (fun v => (v - 1) / ((F : ℚ) - 1))) = 1 := by
    apply le_antisymm
    · obtain ⟨x, hxl, hxe⟩ :=
        List.mem_map.mp (tmax_mem (l.map (fun v => (v - 1) / ((F : ℚ) - 1)))
          (by simp [hne]))
      obtain ⟨m, hm1, hmF, rfl⟩ := hall x hxl
      rw [← hxe, div_le_one hF1]
      have hc : (m : ℚ) ≤ (F : ℚ) := by exact_mod_cast hmF
      linarith
    · apply le_tmax
      refine List.mem_map.mpr ⟨(F : ℚ), hFmem, ?_⟩
      field_simp
  unfold net_third_output net_unscaled_seq
  rw [hnorm]
  simp only [hs_min, hs_max, List.map_map]
  conv_rhs => rw [← List.map_id l]
  apply List.map_congr_left
  intro x hxl
  obtain ⟨m, hm1, hmF, rfl⟩ := hall x hxl
  simp only [Function.comp, id]
  have hne1 : ((F : ℚ) - 1) ≠ 0 := ne_of_gt hF1
  field_simp

theorem net_seq_roundtrip_witness :
    net_third_output 2 [(1 : ℚ), 2] = [(1 : ℚ), 2] :=
  net_seq_roundtrip 2 [(1 : ℚ), 2] (by norm_num)
    (by
      intro x hx
      rcases List.mem_cons.mp hx with h | h
      · exact ⟨1, by norm_num, by norm_num, by rw [h]; norm_num⟩
      · rcases List.mem_cons.mp h with h2 | h2
        · exact ⟨2, by norm_num, by norm_num, by rw [h2]; norm_num⟩
        · simp at h2)
    (by
      intro m h1 h2
      interval_cases m
      · simp
      · simp)
